import Mathlib

/-!
Verification of the signal-analysis core of `app.py` (giornata-scienza-streamlit).

Conventions of the shallow embedding:

* Python/NumPy float arrays are modelled as `List ℚ` (exact rational arithmetic
  stands in for IEEE floats; every literal constant of the source — `1e-10`,
  `0.05`, `0.1`, `0.15`, `0.5`, `50`, `0.5`/`30` — is rational).
* External library transforms that the repository merely calls — `numpy.fft.fft`
  magnitudes, `scipy.signal.hilbert` magnitudes, `scipy.ndimage.uniform_filter1d`
  — are abstract function parameters (`dft`, `H`, `smooth`); the repository-side
  structure around them (padding, slicing, scaling by `2/N`, truncation to
  `N//2`, masking, thresholds, branch logic) is embedded literally.
* `scipy.signal.find_peaks` (local maxima, `height=`, `distance=`) is embedded
  from its documented semantics, since the repository's behaviour depends on it:
  `localMaxima` is the plateau-midpoint local-maximum scan, and
  `selectByPeakDistance` removes, for each surviving peak in order of
  decreasing priority, every other peak closer than `distance` samples.
  `np.argsort` (unstable introsort) is modelled by a deterministic stable
  insertion sort; on priority ties the library order is unspecified.
* Python `int` indices are modelled by `ℕ`; every theorem below carries
  nonemptiness hypotheses under which all Python index arithmetic
  (`len(t)-1`, slice bounds) is nonnegative, so the `ℕ` truncation is exact.
* Loops are embedded as fuel-based structural recursions; the fuel is the
  list length, which bounds the iteration count of the corresponding Python
  loop (the loop index strictly increases each iteration), so the fuel never
  runs out on the reachable arguments.
-/

namespace SpecApp

/-! ### Generic list lemmas -/

theorem find?_eq_head?_filter {α : Type} (p : α → Bool) (l : List α) :
    l.find? p = (l.filter p).head? := by
  induction l with
  | nil => rfl
  | cons a t ih =>
    cases h : p a with
    | true => simp [List.find?_cons, List.filter_cons, h]
    | false => simpa [List.find?_cons, List.filter_cons, h] using ih

theorem find?_congr_mem {α : Type} {p q : α → Bool} {l : List α}
    (h : ∀ x ∈ l, p x = q x) : l.find? p = l.find? q := by
  induction l with
  | nil => rfl
  | cons a t ih =>
    have ha : p a = q a := h a (List.mem_cons_self a t)
    have ht : ∀ x ∈ t, p x = q x := fun x hx => h x (List.mem_cons_of_mem a hx)
    cases hq : q a with
    | true => simp [List.find?_cons, ha, hq]
    | false => simpa [List.find?_cons, ha, hq] using ih ht

theorem getLast?_filter_eq_reverse_find? {α : Type} (p : α → Bool) (l : List α) :
    (l.filter p).getLast? = l.reverse.find? p := by
  rw [find?_eq_head?_filter, List.filter_reverse, List.head?_reverse]

/-- Head of a strictly sorted nonempty list is at most its last element. -/
theorem le_getLast_of_pairwise_lt (a : ℕ) (t : List ℕ)
    (h : (a :: t).Pairwise (· < ·)) : a ≤ (a :: t).getLast (List.cons_ne_nil a t) := by
  cases t with
  | nil => simp [List.getLast]
  | cons b u =>
    rcases List.pairwise_cons.mp h with ⟨ha, _⟩
    rw [List.getLast_cons (List.cons_ne_nil b u)]
    exact Nat.le_of_lt (ha _ (List.getLast_mem (List.cons_ne_nil b u)))

/-! ### NumPy scalar reductions: `np.max`, `np.argmax`, `np.mean` -/

/-- Model of `np.max` on a (nonempty) 1-d array; the `[]` value `0` is never
relied upon (NumPy raises on an empty array, and every theorem that meets
`npMax` carries a nonemptiness hypothesis or guards the empty case the way
the source does). -/
def npMax : List ℚ → ℚ
  | [] => 0
  | a :: t => t.foldl max a

/-- Model of `np.argmax`: index of the first occurrence of the maximum. -/
def npArgmax (l : List ℚ) : ℕ := l.findIdx (fun y => npMax l ≤ y)

/-- Model of `np.mean`. -/
def npMean (l : List ℚ) : ℚ := l.sum / l.length

theorem foldl_max_le_iff (t : List ℚ) : ∀ (a x : ℚ), t.foldl max a ≤ x ↔ a ≤ x ∧ ∀ y ∈ t, y ≤ x := by
  induction t with
  | nil => simp
  | cons b u ih =>
    intro a x
    simp only [List.foldl_cons, ih, max_le_iff, List.mem_cons]
    constructor
    · rintro ⟨⟨h1, h2⟩, h3⟩
      exact ⟨h1, fun y hy => hy.elim (fun e => e ▸ h2) (h3 y)⟩
    · rintro ⟨h1, h2⟩
      exact ⟨⟨h1, h2 b (Or.inl rfl)⟩, fun y hy => h2 y (Or.inr hy)⟩

theorem le_npMax_of_mem {l : List ℚ} {y : ℚ} (hy : y ∈ l) : y ≤ npMax l := by
  cases l with
  | nil => cases hy
  | cons a t =>
    have h := (foldl_max_le_iff t a (npMax (a :: t))).mp le_rfl
    rcases List.mem_cons.mp hy with rfl | hmem
    · exact h.1
    · exact h.2 y hmem

theorem npMax_mem {l : List ℚ} (h : l ≠ []) : npMax l ∈ l := by
  cases l with
  | nil => exact absurd rfl h
  | cons a t =>
    clear h
    show t.foldl max a ∈ a :: t
    induction t generalizing a with
    | nil => simp [List.foldl]
    | cons b u ih =>
      simp only [List.foldl_cons]
      rcases List.mem_cons.mp (ih (max a b)) with h | h
      · rw [h]
        rcases max_choice a b with hm | hm <;> rw [hm] <;> simp
      · exact List.mem_cons_of_mem _ (List.mem_cons_of_mem _ h)

theorem npArgmax_lt_length {l : List ℚ} (h : l ≠ []) : npArgmax l < l.length := by
  have hmem : npMax l ∈ l := npMax_mem h
  have : l.findIdx (fun y => npMax l ≤ y) < l.length :=
    List.findIdx_lt_length_of_exists ⟨npMax l, hmem, by simp⟩
  exact this

theorem getD_npArgmax {l : List ℚ} (h : l ≠ []) : l.getD (npArgmax l) 0 = npMax l := by
  have hlt : npArgmax l < l.length := npArgmax_lt_length h
  have hlt' : l.findIdx (fun y => decide (npMax l ≤ y)) < l.length := hlt
  have hfound := List.findIdx_getElem (w := hlt')
  have hle : npMax l ≤ l[npArgmax l] := by simpa using hfound
  have hge : l[npArgmax l] ≤ npMax l := le_npMax_of_mem (List.getElem_mem hlt)
  rw [List.getD_eq_getElem?_getD, List.getElem?_eq_getElem hlt]
  exact le_antisymm hge hle

theorem getD_le_npMax (l : List ℚ) (i : ℕ) (hi : i < l.length) : l.getD i 0 ≤ npMax l := by
  have : l.getD i 0 ∈ l := by
    rw [List.getD_eq_getElem?_getD, List.getElem?_eq_getElem hi]
    exact List.getElem_mem hi
  exact le_npMax_of_mem this

/-! ### Envelope Extractor (app.py 620-624, 2027-2028, 3024-3025)

`H` abstracts `fun y => np.abs(scipy.signal.hilbert(y))`, the analytic-signal
magnitude of a same-length array; it is library code, so only its use sites
are embedded. -/

/-- Model of `np.pad(y, (p, p), mode='reflect')`: reflection without repeating
the edge sample (valid NumPy semantics for `p ≤ len y - 1`, which holds at all
embedded call sites where `p = len y // 10`). -/
def padReflect (y : List ℚ) (p : ℕ) : List ℚ :=
  ((y.drop 1).take p).reverse ++ y ++ ((y.reverse.drop 1).take p)

/-- Model of the Python slice `l[p:-p]` (empty when `p = 0`, since `l[0:0]`). -/
def sliceTrim (l : List ℚ) (p : ℕ) : List ℚ :=
  if p = 0 then [] else (l.take (l.length - p)).drop p

/-- Envelope extraction at app.py 620-624 (`inviluppo_sup`; same pattern at
715-716, 1108-1109, 1415-1416, 3848-3849): reflection-pad by
`pad_len = int(len(t_pres) * 0.1)` at each end, take the analytic-signal
magnitude, discard the padded regions. -/
def inviluppo_sup (H : List ℚ → List ℚ) (y : List ℚ) : List ℚ :=
  let pad_len := y.length / 10
  sliceTrim (H (padReflect y pad_len)) pad_len

/-- Envelope extraction at app.py 2027-2028 (`inviluppo_spazio`):
`np.abs(signal.hilbert(y_pacchetto_spazio))` applied directly, with no
padding step. -/
def inviluppo_spazio (H : List ℚ → List ℚ) (y : List ℚ) : List ℚ := H y

/-- Envelope extraction at app.py 3024-3025 (`inviluppo_beat`):
`np.abs(hilbert(audio_data_beat))` applied directly, with no padding step. -/
def inviluppo_beat (H : List ℚ → List ℚ) (y : List ℚ) : List ℚ := H y

/-! ### Width Estimator (`calcola_larghezza_temporale`, app.py 332-382) -/

/-- Loop filter of the lateral-minimum searches (app.py 350-355 and 362-367):
the `continue` guard `i <= 0 or i >= len(env_norm) - 1` followed by the
local-minimum-below-threshold test. -/
def isLateralMin (e : List ℚ) (threshold : ℚ) (i : ℕ) : Bool :=
  decide (0 < i ∧ i + 1 < e.length ∧
    e.getD i 0 < e.getD (i - 1) 0 ∧ e.getD i 0 < e.getD (i + 1) 0 ∧
    e.getD i 0 < threshold)

/-- Python `range(idx_centro - 10, 10, -1)` (app.py 349): the descending
indices `idx_centro-10, idx_centro-11, ..., 11`. -/
def leftCandidates (idx_centro : ℕ) : List ℕ :=
  (List.range (idx_centro - 20)).map (fun j => idx_centro - 10 - j)

/-- Python `range(idx_centro + 10, len(env_norm) - 10)` (app.py 361): the
ascending indices `idx_centro+10, ..., len-11`. -/
def rightCandidates (idx_centro n : ℕ) : List ℕ :=
  (List.range (n - 10 - (idx_centro + 10))).map (fun j => idx_centro + 10 + j)

/-- Indices of `np.where(env_norm > 0.5)[0]` (app.py 374-377). -/
def aboveHalfIdx (e : List ℚ) : List ℕ :=
  (List.range e.length).filter (fun i => decide ((1:ℚ)/2 < e.getD i 0))

/-- Embedding of `calcola_larghezza_temporale(t, inviluppo, threshold=0.05)`
(app.py 332-382).  Returns `(delta_x, idx_sx, idx_dx)`.  Python's
`len(t)-1` is modelled by `t.length - 1 : ℕ`; the two agree whenever `t` is
nonempty, which every theorem below assumes. -/
def calcola_larghezza_temporale (t inviluppo : List ℚ) (threshold : ℚ := 1/20) :
    ℚ × ℕ × ℕ :=
  let max_env := npMax inviluppo
  if max_env < 1/10^10 then (0, 0, t.length - 1)
  else
    let env_norm := inviluppo.map (fun v => v / max_env)
    let idx_centro := npArgmax env_norm
    let sx? := (leftCandidates idx_centro).find? (isLateralMin env_norm threshold)
    let dx? := (rightCandidates idx_centro env_norm.length).find? (isLateralMin env_norm threshold)
    match sx?, dx? with
    | some idx_sx, some idx_dx =>
        (|t.getD idx_dx 0 - t.getD idx_sx 0|, idx_sx, idx_dx)
    | _, _ =>
        match aboveHalfIdx env_norm with
        | [] => (0, 0, t.length - 1)
        | i :: is => (|t.getD ((i :: is).getLast (List.cons_ne_nil i is)) 0 - t.getD i 0|,
                      i, (i :: is).getLast (List.cons_ne_nil i is))

/-- Variant of `calcola_larghezza_temporale` whose no-sample-above-half
fallback branch (app.py 378-379) is replaced by a junk value; used to state
that the branch is unreachable once the envelope maximum reaches the
numerical floor. -/
def calcola_larghezza_stubbed (t inviluppo : List ℚ) (threshold : ℚ := 1/20) :
    ℚ × ℕ × ℕ :=
  let max_env := npMax inviluppo
  if max_env < 1/10^10 then (0, 0, t.length - 1)
  else
    let env_norm := inviluppo.map (fun v => v / max_env)
    let idx_centro := npArgmax env_norm
    let sx? := (leftCandidates idx_centro).find? (isLateralMin env_norm threshold)
    let dx? := (rightCandidates idx_centro env_norm.length).find? (isLateralMin env_norm threshold)
    match sx?, dx? with
    | some idx_sx, some idx_dx =>
        (|t.getD idx_dx 0 - t.getD idx_sx 0|, idx_sx, idx_dx)
    | _, _ =>
        match aboveHalfIdx env_norm with
        | [] => (37, 5, 2)
        | i :: is => (|t.getD ((i :: is).getLast (List.cons_ne_nil i is)) 0 - t.getD i 0|,
                      i, (i :: is).getLast (List.cons_ne_nil i is))

/-! ### Width Estimator, re-stated from the specification's words (for C3)

These definitions follow spec.md §4.3 / claim C3 as written: normalize by the
global maximum, locate the maximum's index, search outward (excluding the
10-sample margin around the peak and the 10-sample boundary at each end) for
the first local minimum strictly below both neighbours and below τ; on
failure of either side use the leftmost/rightmost index where the normalized
envelope exceeds 0.5; width is the absolute coordinate difference. -/

/-- Specification reading of a qualifying lateral minimum: strictly below
both neighbours and below the threshold. -/
def specLocalMinBelow (e : List ℚ) (tau : ℚ) (i : ℕ) : Bool :=
  decide (e.getD i 0 < e.getD (i - 1) 0 ∧ e.getD i 0 < e.getD (i + 1) 0 ∧
    e.getD i 0 < tau)

/-- Specification-worded width estimator. The left search window is the
interval `[11, c-10]` (10 excluded boundary samples, 10 excluded margin
samples) searched outward from the peak, i.e. its greatest qualifying index;
the right window is `[c+10, N-11]` searched outward, i.e. its least
qualifying index. -/
def widthSpec (t env : List ℚ) (tau : ℚ) : ℚ × ℕ × ℕ :=
  let m := npMax env
  let e := env.map (fun v => v / m)
  let c := npArgmax e
  let sxS := ((List.range' 11 (c - 20)).filter (specLocalMinBelow e tau)).getLast?
  let dxS := ((List.range' (c + 10) (e.length - (c + 20))).filter (specLocalMinBelow e tau)).head?
  match sxS, dxS with
  | some sx, some dx => (|t.getD dx 0 - t.getD sx 0|, sx, dx)
  | _, _ =>
      let sxF := (List.range e.length).find? (fun i => decide ((1:ℚ)/2 < e.getD i 0))
      let dxF := (List.range e.length).reverse.find? (fun i => decide ((1:ℚ)/2 < e.getD i 0))
      match sxF, dxF with
      | some sx, some dx => (|t.getD dx 0 - t.getD sx 0|, sx, dx)
      | _, _ => (0, 0, t.length - 1)

/-! ### Claim C1 -/

theorem padReflect_length {y : List ℚ} {p : ℕ} (hp : p + 1 ≤ y.length) :
    (padReflect y p).length = y.length + 2 * p := by
  unfold padReflect
  simp only [List.length_append, List.length_reverse, List.length_take,
    List.length_drop, List.length_reverse]
  omega

theorem sliceTrim_length {l : List ℚ} {p : ℕ} (hp : p ≠ 0) :
    (sliceTrim l p).length = l.length - 2 * p := by
  unfold sliceTrim
  rw [if_neg hp]
  simp only [List.length_drop, List.length_take]
  omega

/-- Claim C1, amended part: the padded extraction sites (app.py 620-624 and
its clones) reflection-pad by `len // 10` samples at each end, discard the
padded regions, and return an envelope of the input's length, for every
length-preserving analytic-signal magnitude and every signal of at least 10
samples (so that the pad is at least one sample). -/
theorem C1_padded_sites_preserve_length (H : List ℚ → List ℚ) (y : List ℚ)
    (hH : ∀ l, (H l).length = l.length) (hy : 10 ≤ y.length) :
    (inviluppo_sup H y).length = y.length := by
  unfold inviluppo_sup
  have hp1 : 1 ≤ y.length / 10 := (Nat.one_le_div_iff (by norm_num)).mpr hy
  have hple : y.length / 10 + 1 ≤ y.length := by
    have := Nat.div_lt_self (show 0 < y.length by omega) (show 1 < 10 by norm_num)
    omega
  rw [sliceTrim_length (by omega), hH, padReflect_length hple]
  omega

/-- Witness for `C1_padded_sites_preserve_length` at `H = id` and a
10-sample signal. -/
theorem C1_padded_sites_preserve_length_witness :
    (inviluppo_sup (fun l => l) (List.replicate 10 (1 : ℚ))).length =
      (List.replicate 10 (1 : ℚ)).length :=
  C1_padded_sites_preserve_length (fun l => l) (List.replicate 10 (1 : ℚ))
    (fun _ => rfl) (by decide)

/-- Claim C1, counterexample: the envelope extractions at app.py 2027-2028
(`inviluppo_spazio`) and 3024-3025 (`inviluppo_beat`) do not perform the
reflection-padded computation: already for the length-preserving transform
`H l = l + len l` and the 10-sample zero signal they disagree with the
padded pipeline of app.py 620-624. -/
theorem C1_counterexample :
    inviluppo_spazio (fun l => l.map (fun x => x + l.length)) (List.replicate 10 0) ≠
      inviluppo_sup (fun l => l.map (fun x => x + l.length)) (List.replicate 10 0) ∧
    inviluppo_beat (fun l => l.map (fun x => x + l.length)) (List.replicate 10 0) ≠
      inviluppo_sup (fun l => l.map (fun x => x + l.length)) (List.replicate 10 0) := by
  constructor <;> exact of_decide_eq_false (by with_unfolding_all rfl)

/-! ### Claim C2 -/

/-- Claim C2: whenever the envelope's global maximum is below the numerical
floor `1e-10`, the Width Estimator returns width `0` with boundary indices
`(0, N-1)`.  (The embedding is a total function on `ℚ`, so no exception and
no NaN/Inf value can be produced; the nonemptiness and matching-length
hypotheses are the claim's presupposition that `t`, `env` form a sample
grid with its envelope — NumPy's `np.max` would raise on an empty array.) -/
theorem C2_below_floor_degenerate (t env : List ℚ) (tau : ℚ)
    (henv : env ≠ []) (hlen : t.length = env.length)
    (hfloor : npMax env < 1/10^10) :
    calcola_larghezza_temporale t env tau = (0, 0, t.length - 1) := by
  unfold calcola_larghezza_temporale
  rw [if_pos hfloor]

/-- Witness for `C2_below_floor_degenerate` on a three-sample all-zero
envelope. -/
theorem C2_below_floor_degenerate_witness :
    calcola_larghezza_temporale [0, 1, 2] [0, 0, 0] (1/20) = (0, 0, 2) :=
  C2_below_floor_degenerate [0, 1, 2] [0, 0, 0] (1/20) (by decide) (by decide)
    (of_decide_eq_true (by with_unfolding_all rfl))

/-! ### Claim C4 -/

theorem mem_leftCandidates {c i : ℕ} (h : i ∈ leftCandidates c) :
    11 ≤ i ∧ i + 10 ≤ c := by
  unfold leftCandidates at h
  rcases List.mem_map.mp h with ⟨j, hj, rfl⟩
  rw [List.mem_range] at hj
  omega

theorem mem_rightCandidates {c n i : ℕ} (h : i ∈ rightCandidates c n) :
    c + 10 ≤ i ∧ i + 11 ≤ n := by
  unfold rightCandidates at h
  rcases List.mem_map.mp h with ⟨j, hj, rfl⟩
  rw [List.mem_range] at hj
  omega

theorem aboveHalfIdx_pairwise (e : List ℚ) : (aboveHalfIdx e).Pairwise (· < ·) :=
  (List.pairwise_lt_range e.length).filter _

/-- Claim C4: on a matched sample grid and (nonempty) envelope of any
values, the triple returned by the Width Estimator satisfies the
WidthMeasurement invariant: right boundary index at least the left one, and
nonnegative width. -/
theorem C4_width_measurement_invariant (t env : List ℚ) (tau : ℚ)
    (henv : env ≠ []) (hlen : t.length = env.length) :
    (calcola_larghezza_temporale t env tau).2.1 ≤
        (calcola_larghezza_temporale t env tau).2.2 ∧
      0 ≤ (calcola_larghezza_temporale t env tau).1 := by
  unfold calcola_larghezza_temporale
  dsimp only
  split
  · exact ⟨Nat.zero_le _, le_refl 0⟩
  · set e := env.map (fun v => v / npMax env) with he
    set c := npArgmax e with hc
    cases hsx : (leftCandidates c).find? (isLateralMin e tau) with
    | some idx_sx =>
      cases hdx : (rightCandidates c e.length).find? (isLateralMin e tau) with
      | some idx_dx =>
        simp only
        refine ⟨?_, abs_nonneg _⟩
        have h1 := mem_leftCandidates (List.mem_of_find?_eq_some hsx)
        have h2 := mem_rightCandidates (List.mem_of_find?_eq_some hdx)
        omega
      | none =>
        simp only
        cases hA : aboveHalfIdx e with
        | nil => exact ⟨Nat.zero_le _, le_refl 0⟩
        | cons i is =>
          refine ⟨?_, abs_nonneg _⟩
          have := le_getLast_of_pairwise_lt i is (hA ▸ aboveHalfIdx_pairwise e)
          exact this
    | none =>
      simp only
      cases hA : aboveHalfIdx e with
      | nil => exact ⟨Nat.zero_le _, le_refl 0⟩
      | cons i is =>
        refine ⟨?_, abs_nonneg _⟩
        exact le_getLast_of_pairwise_lt i is (hA ▸ aboveHalfIdx_pairwise e)

/-- Witness for `C4_width_measurement_invariant` on a concrete grid and
envelope. -/
theorem C4_width_measurement_invariant_witness :
    (calcola_larghezza_temporale [0, 1, 2] [0, 5, 0] (1/20)).2.1 ≤
        (calcola_larghezza_temporale [0, 1, 2] [0, 5, 0] (1/20)).2.2 ∧
      0 ≤ (calcola_larghezza_temporale [0, 1, 2] [0, 5, 0] (1/20)).1 :=
  C4_width_measurement_invariant [0, 1, 2] [0, 5, 0] (1/20) (by decide) (by decide)

/-! ### Claim C9 -/

theorem getD_map_div (env : List ℚ) (m : ℚ) {i : ℕ} (hi : i < env.length) :
    (env.map (fun v => v / m)).getD i 0 = env.getD i 0 / m := by
  rw [List.getD_eq_getElem?_getD, List.getD_eq_getElem?_getD,
    List.getElem?_map, List.getElem?_eq_getElem hi]
  rfl

theorem env_ne_nil_of_floor {env : List ℚ} (hfloor : 1/10^10 ≤ npMax env) :
    env ≠ [] := by
  intro h
  rw [h] at hfloor
  norm_num [npMax] at hfloor

/-- Above the numerical floor, the normalized envelope attains the value `1`
at the index the Width Estimator normalizes around, so the set of samples
strictly above one half is nonempty. -/
theorem aboveHalfIdx_ne_nil_of_floor {env : List ℚ}
    (hfloor : 1/10^10 ≤ npMax env) :
    aboveHalfIdx (env.map (fun v => v / npMax env)) ≠ [] := by
  have henv : env ≠ [] := env_ne_nil_of_floor hfloor
  have hargl : npArgmax env < env.length := npArgmax_lt_length henv
  have hpos : 0 < npMax env := lt_of_lt_of_le (by norm_num) hfloor
  have h1 : (env.map (fun v => v / npMax env)).getD (npArgmax env) 0 = 1 := by
    rw [getD_map_div env (npMax env) hargl, getD_npArgmax henv,
      div_self (ne_of_gt hpos)]
  have hmem : npArgmax env ∈ aboveHalfIdx (env.map (fun v => v / npMax env)) := by
    unfold aboveHalfIdx
    rw [List.mem_filter]
    refine ⟨List.mem_range.mpr (by simpa using hargl), ?_⟩
    rw [h1]
    norm_num
  exact List.ne_nil_of_mem hmem

/-- Claim C9: once the envelope's global maximum is at or above the
numerical floor, the full-width-at-half-maximum fallback always succeeds:
the no-sample-above-half branch of `calcola_larghezza_temporale` (app.py
378-379) is unreachable, so replacing that branch by a junk value
(`calcola_larghezza_stubbed`) does not change the function. -/
theorem C9_fwhm_fallback_total (t env : List ℚ) (tau : ℚ)
    (hfloor : 1/10^10 ≤ npMax env) :
    aboveHalfIdx (env.map (fun v => v / npMax env)) ≠ [] ∧
      calcola_larghezza_temporale t env tau = calcola_larghezza_stubbed t env tau := by
  refine ⟨aboveHalfIdx_ne_nil_of_floor hfloor, ?_⟩
  unfold calcola_larghezza_temporale calcola_larghezza_stubbed
  dsimp only
  rw [if_neg (not_lt.mpr hfloor), if_neg (not_lt.mpr hfloor)]
  cases hsx : (leftCandidates (npArgmax (env.map (fun v => v / npMax env)))).find?
      (isLateralMin (env.map (fun v => v / npMax env)) tau) with
  | some idx_sx =>
    cases hdx : (rightCandidates (npArgmax (env.map (fun v => v / npMax env)))
        (env.map (fun v => v / npMax env)).length).find?
        (isLateralMin (env.map (fun v => v / npMax env)) tau) with
    | some idx_dx => rfl
    | none =>
      cases hA : aboveHalfIdx (env.map (fun v => v / npMax env)) with
      | nil => exact absurd hA (aboveHalfIdx_ne_nil_of_floor hfloor)
      | cons i is => rfl
  | none =>
    cases hA : aboveHalfIdx (env.map (fun v => v / npMax env)) with
    | nil => exact absurd hA (aboveHalfIdx_ne_nil_of_floor hfloor)
    | cons i is => rfl

/-- Witness for `C9_fwhm_fallback_total` on a concrete envelope above the
floor. -/
theorem C9_fwhm_fallback_total_witness :
    aboveHalfIdx (([0, 3, 0] : List ℚ).map (fun v => v / npMax [0, 3, 0])) ≠ [] ∧
      calcola_larghezza_temporale [0, 1, 2] [0, 3, 0] (1/20) =
        calcola_larghezza_stubbed [0, 1, 2] [0, 3, 0] (1/20) :=
  C9_fwhm_fallback_total [0, 1, 2] [0, 3, 0] (1/20)
    (of_decide_eq_true (by with_unfolding_all rfl))

/-! ### Claim C3 -/

theorem leftCandidates_eq_reverse_range (c : ℕ) :
    leftCandidates c = (List.range' 11 (c - 20)).reverse := by
  unfold leftCandidates
  rw [List.reverse_range']
  exact List.map_congr_left (fun j hj => by rw [List.mem_range] at hj; omega)

theorem rightCandidates_eq_range (c n : ℕ) :
    rightCandidates c n = List.range' (c + 10) (n - (c + 20)) := by
  unfold rightCandidates
  rw [List.range'_eq_map_range]
  have h : n - 10 - (c + 10) = n - (c + 20) := by omega
  rw [h]

theorem isLateralMin_eq_spec_on_left {e : List ℚ} {tau : ℚ} {c i : ℕ}
    (hc : c < e.length) (hmem : i ∈ List.range' 11 (c - 20)) :
    isLateralMin e tau i = specLocalMinBelow e tau i := by
  rw [List.mem_range'] at hmem
  obtain ⟨h1, h2⟩ := hmem
  unfold isLateralMin specLocalMinBelow
  apply decide_eq_decide.mpr
  constructor
  · rintro ⟨_, _, h⟩; exact h
  · intro h; exact ⟨by omega, by omega, h⟩

theorem isLateralMin_eq_spec_on_right {e : List ℚ} {tau : ℚ} {c i : ℕ}
    (hmem : i ∈ List.range' (c + 10) (e.length - (c + 20))) :
    isLateralMin e tau i = specLocalMinBelow e tau i := by
  rw [List.mem_range'] at hmem
  obtain ⟨h1, h2⟩ := hmem
  unfold isLateralMin specLocalMinBelow
  apply decide_eq_decide.mpr
  constructor
  · rintro ⟨_, _, h⟩; exact h
  · intro h; exact ⟨by omega, by omega, h⟩

/-- The left lateral-minimum search of the source (first hit of a descending
scan) computes the greatest qualifying index of the specification's left
window. -/
theorem left_search_eq_spec (e : List ℚ) (tau : ℚ) {c : ℕ} (hc : c < e.length) :
    (leftCandidates c).find? (isLateralMin e tau) =
      ((List.range' 11 (c - 20)).filter (specLocalMinBelow e tau)).getLast? := by
  rw [getLast?_filter_eq_reverse_find?, leftCandidates_eq_reverse_range]
  exact find?_congr_mem (fun i hi =>
    isLateralMin_eq_spec_on_left hc (List.mem_reverse.mp hi))

/-- The right lateral-minimum search of the source (first hit of an ascending
scan) computes the least qualifying index of the specification's right
window. -/
theorem right_search_eq_spec (e : List ℚ) (tau : ℚ) (c : ℕ) :
    (rightCandidates c e.length).find? (isLateralMin e tau) =
      ((List.range' (c + 10) (e.length - (c + 20))).filter (specLocalMinBelow e tau)).head? := by
  rw [← find?_eq_head?_filter, rightCandidates_eq_range]
  exact find?_congr_mem (fun i hi => isLateralMin_eq_spec_on_right hi)

/-- Claim C3: above the numerical floor, `calcola_larghezza_temporale`
computes exactly the algorithm stated in the specification (normalize by
the global maximum, locate the maximum's index, search outward with the
10-sample margin and 10-sample boundary exclusions for the first local
minimum below τ, fall back to full-width-at-half-maximum when either side
fails, return the absolute coordinate difference). -/
theorem C3_width_estimator_follows_spec (t env : List ℚ) (tau : ℚ)
    (hfloor : 1/10^10 ≤ npMax env) :
    calcola_larghezza_temporale t env tau = widthSpec t env tau := by
  have henv : env ≠ [] := env_ne_nil_of_floor hfloor
  have he : env.map (fun v => v / npMax env) ≠ [] := by
    simpa using henv
  have hc : npArgmax (env.map (fun v => v / npMax env)) <
      (env.map (fun v => v / npMax env)).length := npArgmax_lt_length he
  unfold calcola_larghezza_temporale widthSpec
  dsimp only
  rw [if_neg (not_lt.mpr hfloor)]
  rw [left_search_eq_spec _ tau (by simpa using hc), right_search_eq_spec]
  cases hsx : ((List.range' 11 (npArgmax (env.map (fun v => v / npMax env)) - 20)).filter
      (specLocalMinBelow (env.map (fun v => v / npMax env)) tau)).getLast? with
  | some idx_sx =>
    cases hdx : ((List.range' (npArgmax (env.map (fun v => v / npMax env)) + 10)
        ((env.map (fun v => v / npMax env)).length -
          (npArgmax (env.map (fun v => v / npMax env)) + 20))).filter
        (specLocalMinBelow (env.map (fun v => v / npMax env)) tau)).head? with
    | some idx_dx => rfl
    | none =>
      rw [find?_eq_head?_filter, ← getLast?_filter_eq_reverse_find?]
      show _ = (match
          ((List.range (env.map (fun v => v / npMax env)).length).filter
            (fun i => decide ((1:ℚ)/2 < (env.map (fun v => v / npMax env)).getD i 0))).head?,
          ((List.range (env.map (fun v => v / npMax env)).length).filter
            (fun i => decide ((1:ℚ)/2 < (env.map (fun v => v / npMax env)).getD i 0))).getLast? with
        | some sx, some dx => (|t.getD dx 0 - t.getD sx 0|, sx, dx)
        | _, _ => (0, 0, t.length - 1))
      cases hA : aboveHalfIdx (env.map (fun v => v / npMax env)) with
      | nil => exact absurd hA (aboveHalfIdx_ne_nil_of_floor hfloor)
      | cons i is =>
        unfold aboveHalfIdx at hA
        rw [hA]
        simp only [List.head?_cons, List.getLast?_eq_getLast _ (List.cons_ne_nil i is)]
  | none =>
      rw [find?_eq_head?_filter, ← getLast?_filter_eq_reverse_find?]
      show _ = (match
          ((List.range (env.map (fun v => v / npMax env)).length).filter
            (fun i => decide ((1:ℚ)/2 < (env.map (fun v => v / npMax env)).getD i 0))).head?,
          ((List.range (env.map (fun v => v / npMax env)).length).filter
            (fun i => decide ((1:ℚ)/2 < (env.map (fun v => v / npMax env)).getD i 0))).getLast? with
        | some sx, some dx => (|t.getD dx 0 - t.getD sx 0|, sx, dx)
        | _, _ => (0, 0, t.length - 1))
      cases hA : aboveHalfIdx (env.map (fun v => v / npMax env)) with
      | nil => exact absurd hA (aboveHalfIdx_ne_nil_of_floor hfloor)
      | cons i is =>
        unfold aboveHalfIdx at hA
        rw [hA]
        simp only [List.head?_cons, List.getLast?_eq_getLast _ (List.cons_ne_nil i is)]

/-- Witness for `C3_width_estimator_follows_spec` on a concrete envelope. -/
theorem C3_width_estimator_follows_spec_witness :
    calcola_larghezza_temporale [0, 1, 2] [0, 3, 0] (1/20) =
      widthSpec [0, 1, 2] [0, 3, 0] (1/20) :=
  C3_width_estimator_follows_spec [0, 1, 2] [0, 3, 0] (1/20)
    (of_decide_eq_true (by with_unfolding_all rfl))

/-! ### `scipy.signal.find_peaks`

Embedded from the library's documented semantics (`_local_maxima_1d` and the
`height=` / `distance=` selections), since the repository's spectral peak
picking behaviour depends on them. -/

/-- Inner plateau scan of `_local_maxima_1d`: starting at `j`, advance while
`j < len x - 1` and `x[j] = v`; returns the first index whose value differs
from `v` (or the last index).  The fuel (first argument) bounds the number of
steps; it is always called with fuel `len x`, which suffices because `j`
strictly increases. -/
def nextNE (x : List ℚ) (v : ℚ) : ℕ → ℕ → ℕ
  | 0, j => j
  | fuel + 1, j =>
    if j + 1 < x.length ∧ x.getD j 0 = v then nextNE x v fuel (j + 1) else j

/-- Main loop of `_local_maxima_1d`, from index `i`: a sample `i` with
`x[i-1] < x[i]` starts a (possibly one-sample) plateau ending before
`i_ahead = nextNE …`; if the plateau then falls off (`x[i_ahead] < x[i]`),
the plateau midpoint is a peak and the scan resumes at `i_ahead + 1`,
otherwise at `i + 1`.  Runs while `i < len x - 1`.  Fuel as in `nextNE`. -/
def lmLoop (x : List ℚ) : ℕ → ℕ → List ℕ
  | 0, _ => []
  | fuel + 1, i =>
    if i + 1 < x.length then
      if x.getD (i - 1) 0 < x.getD i 0 then
        let ia := nextNE x (x.getD i 0) x.length (i + 1)
        if x.getD ia 0 < x.getD i 0 then
          ((i + (ia - 1)) / 2) :: lmLoop x fuel (ia + 1)
        else lmLoop x fuel (i + 1)
      else lmLoop x fuel (i + 1)
    else []

/-- Local maxima (plateau midpoints) of a 1-d array, as found by
`scipy.signal._local_maxima_1d`. -/
def localMaxima (x : List ℚ) : List ℕ := lmLoop x x.length 1

/-- Stable insertion of index `i` into an index list sorted by descending
`vals`-value (ties: earlier-inserted index stays first). -/
def insertDescBy (vals : List ℚ) (i : ℕ) : List ℕ → List ℕ
  | [] => [i]
  | j :: rest =>
    if vals.getD i 0 ≤ vals.getD j 0 then j :: insertDescBy vals i rest
    else i :: j :: rest

/-- Indices `0 … len vals - 1` sorted by descending value: the order in which
`_select_by_peak_distance` visits the peaks (`np.argsort(priority)` read
backwards).  `np.argsort`'s unstable sort leaves the order of equal
priorities unspecified; this model fixes the ascending-index order. -/
def argsortDesc (vals : List ℚ) : List ℕ :=
  (List.range vals.length).foldl (fun acc i => insertDescBy vals i acc) []

/-- One round of `_select_by_peak_distance`: if peak (position) `j` is still
kept, clear the keep flag of every other peak strictly closer than `d`
samples to it. -/
def pruneStep (peaks : List ℕ) (d : ℕ) (keep : List Bool) (j : ℕ) : List Bool :=
  if keep.getD j false then
    (List.range keep.length).map (fun k =>
      if k ≠ j ∧ ((peaks.getD k 0 : ℤ) - peaks.getD j 0).natAbs < d then false
      else keep.getD k false)
  else keep

/-- Model of `_select_by_peak_distance(peaks, priority, distance)`: visit peaks in
order of decreasing priority, and around each survivor clear every other
peak closer than `distance`; return the kept peaks (ascending, as the keep
mask is applied positionally). -/
def selectByPeakDistance (peaks : List ℕ) (priority : List ℚ) (d : ℕ) : List ℕ :=
  let keep := (argsortDesc priority).foldl (pruneStep peaks d) (List.replicate peaks.length true)
  ((List.range peaks.length).filter (fun k => keep.getD k false)).map
    (fun k => peaks.getD k 0)

/-- Model of `find_peaks(x, height=hmin)`: local maxima of value at least `hmin`. -/
def findPeaksHeight (x : List ℚ) (hmin : ℚ) : List ℕ :=
  (localMaxima x).filter (fun i => decide (hmin ≤ x.getD i 0))

/-- Model of `find_peaks(x, height=hmin, distance=d)`: as in scipy, the height
selection runs first, then the distance selection with priority `x[peaks]`. -/
def findPeaksHD (x : List ℚ) (hmin : ℚ) (d : ℕ) : List ℕ :=
  let peaks := findPeaksHeight x hmin
  selectByPeakDistance peaks (peaks.map (fun i => x.getD i 0)) d

/-- Model of `find_peaks(x, distance=d)` with no height selection (the beat
recognizer's envelope fallback, app.py 3047). -/
def findPeaksDistance (x : List ℚ) (d : ℕ) : List ℕ :=
  let peaks := localMaxima x
  selectByPeakDistance peaks (peaks.map (fun i => x.getD i 0)) d

/-! ### Separation property of the distance selection -/

theorem getD_map_range {α : Type} (n : ℕ) (f : ℕ → α) (k : ℕ) (d : α) :
    (((List.range n).map f).getD k d) = if k < n then f k else d := by
  rcases lt_or_le k n with h | h
  · rw [List.getD_eq_getElem?_getD, List.getElem?_map, List.getElem?_range h,
      if_pos h]
    rfl
  · have hnone : (List.range n)[k]? = none :=
      List.getElem?_eq_none (by simpa using h)
    rw [List.getD_eq_getElem?_getD, List.getElem?_map, hnone,
      if_neg (not_lt.mpr h)]
    rfl

theorem pruneStep_length (peaks : List ℕ) (d : ℕ) (keep : List Bool) (j : ℕ) :
    (pruneStep peaks d keep j).length = keep.length := by
  unfold pruneStep
  split
  · simp
  · rfl

theorem pruneStep_false (peaks : List ℕ) (d : ℕ) (keep : List Bool) (j k : ℕ)
    (h : keep.getD k false = false) : (pruneStep peaks d keep j).getD k false = false := by
  unfold pruneStep
  split
  · rw [getD_map_range]
    split
    · split
      · rfl
      · exact h
    · rfl
  · exact h

theorem foldl_pruneStep_false (peaks : List ℕ) (d : ℕ) (order : List ℕ) :
    ∀ (keep : List Bool) (k : ℕ), keep.getD k false = false →
      (order.foldl (pruneStep peaks d) keep).getD k false = false := by
  induction order with
  | nil => intro keep k h; exact h
  | cons a rest ih =>
    intro keep k h
    exact ih _ k (pruneStep_false peaks d keep a k h)

theorem pruneStep_clears_close (peaks : List ℕ) (d : ℕ) (keep : List Bool)
    {j k : ℕ} (hj : keep.getD j false = true) (hk : k ≠ j)
    (hclose : ((peaks.getD k 0 : ℤ) - peaks.getD j 0).natAbs < d) :
    (pruneStep peaks d keep j).getD k false = false := by
  unfold pruneStep
  rw [if_pos hj, getD_map_range]
  split
  · rw [if_pos ⟨hk, hclose⟩]
  · rfl

/-- Central invariant of `_select_by_peak_distance`: after the full pruning
pass, two distinct peak positions closer than the distance cannot both be
kept, provided one of them is visited. -/
theorem foldl_prune_sep (peaks : List ℕ) (d : ℕ) :
    ∀ (order : List ℕ) (keep : List Bool) (j k : ℕ), j ∈ order → j ≠ k →
      ((peaks.getD k 0 : ℤ) - peaks.getD j 0).natAbs < d →
      ¬((order.foldl (pruneStep peaks d) keep).getD j false = true ∧
        (order.foldl (pruneStep peaks d) keep).getD k false = true) := by
  intro order
  induction order with
  | nil => intro keep j k hj; cases hj
  | cons a rest ih =>
    intro keep j k hj hjk hclose ⟨hjT, hkT⟩
    rw [List.foldl_cons] at hjT hkT
    rcases List.mem_cons.mp hj with rfl | hjrest
    · -- j = a is visited first
      cases ha : keep.getD j false with
      | false =>
        have : (pruneStep peaks d keep j).getD j false = false :=
          pruneStep_false peaks d keep j j ha
        have := foldl_pruneStep_false peaks d rest _ j this
        rw [this] at hjT; cases hjT
      | true =>
        have hkF : (pruneStep peaks d keep j).getD k false = false :=
          pruneStep_clears_close peaks d keep ha (Ne.symm hjk) hclose
        have := foldl_pruneStep_false peaks d rest _ k hkF
        rw [this] at hkT; cases hkT
    · exact ih _ j k hjrest hjk hclose ⟨hjT, hkT⟩

theorem mem_insertDescBy (vals : List ℚ) (x i : ℕ) :
    ∀ l : List ℕ, i ∈ insertDescBy vals x l ↔ i = x ∨ i ∈ l := by
  intro l
  induction l with
  | nil => simp [insertDescBy]
  | cons j rest ih =>
    unfold insertDescBy
    split
    · rw [List.mem_cons, ih, List.mem_cons]
      tauto
    · rw [List.mem_cons, List.mem_cons]

theorem mem_foldl_insertDescBy (vals : List ℚ) (i : ℕ) :
    ∀ (l : List ℕ) (acc : List ℕ), i ∈ acc ∨ i ∈ l →
      i ∈ l.foldl (fun acc x => insertDescBy vals x acc) acc := by
  intro l
  induction l with
  | nil => intro acc h; exact h.elim id (fun h => absurd h (List.not_mem_nil i))
  | cons a rest ih =>
    intro acc h
    rw [List.foldl_cons]
    apply ih
    rcases h with h | h
    · exact Or.inl ((mem_insertDescBy vals a i acc).mpr (Or.inr h))
    · rcases List.mem_cons.mp h with rfl | h
      · exact Or.inl ((mem_insertDescBy vals i i acc).mpr (Or.inl rfl))
      · exact Or.inr h

theorem mem_argsortDesc (vals : List ℚ) {i : ℕ} (hi : i < vals.length) :
    i ∈ argsortDesc vals := by
  unfold argsortDesc
  exact mem_foldl_insertDescBy vals i _ [] (Or.inr (List.mem_range.mpr hi))

/-- The kept peaks of the distance selection are pairwise at least `d`
samples apart, as long as every peak position index is visited (which
`argsortDesc` guarantees when the priority list has one entry per peak). -/
theorem selectByPeakDistance_pairwise (peaks : List ℕ) (priority : List ℚ)
    (d : ℕ) (hlen : priority.length = peaks.length) :
    (selectByPeakDistance peaks priority d).Pairwise
      (fun p1 p2 : ℕ => d ≤ ((p1 : ℤ) - (p2 : ℤ)).natAbs) := by
  unfold selectByPeakDistance
  rw [List.pairwise_map]
  have hpw : ((List.range peaks.length).filter
      (fun k => ((argsortDesc priority).foldl (pruneStep peaks d)
        (List.replicate peaks.length true)).getD k false)).Pairwise (· < ·) :=
    (List.pairwise_lt_range peaks.length).filter _
  refine hpw.imp_of_mem ?_
  intro a b ha hb hab
  rw [List.mem_filter, List.mem_range] at ha hb
  by_contra hcon
  push_neg at hcon
  exact foldl_prune_sep peaks d (argsortDesc priority)
    (List.replicate peaks.length true) a b
    (mem_argsortDesc priority (hlen ▸ ha.1)) (Nat.ne_of_lt hab)
    (by omega) ⟨ha.2, hb.2⟩

/-- Every kept peak of the distance selection is one of the input peaks. -/
theorem selectByPeakDistance_subset (peaks : List ℕ) (priority : List ℚ)
    (d : ℕ) : ∀ p ∈ selectByPeakDistance peaks priority d, p ∈ peaks := by
  intro p hp
  unfold selectByPeakDistance at hp
  rcases List.mem_map.mp hp with ⟨k, hk, rfl⟩
  rw [List.mem_filter, List.mem_range] at hk
  rw [List.getD_eq_getElem?_getD, List.getElem?_eq_getElem hk.1]
  exact List.getElem_mem hk.1

/-! ### Claim C5: Spectral Analyzer

`dft` abstracts `fun y => np.abs(np.fft.fft(y))` (elementwise magnitudes of
the library FFT, a same-length array). -/

/-- One-sided amplitude spectrum at app.py 1754-1757:
`potenza = 2.0/N * np.abs(yf[:N//2])` with `N = len(y)`. -/
def potenza (dft : List ℚ → List ℚ) (y : List ℚ) : List ℚ :=
  ((dft y).take (y.length / 2)).map (fun a => 2 / (y.length : ℚ) * a)

/-- Frequency bins `xf = fftfreq(N, 1/fs)[:N//2]` (app.py 1756): the `k`-th
retained bin is `k * fs / N`. -/
def xfFreqs (fs N : ℕ) : List ℚ :=
  (List.range (N / 2)).map (fun k => (k : ℚ) * fs / N)

/-- Peak picking of the Fourier-spectrum page (app.py 1784-1786):
`find_peaks(potenza, height=np.max(potenza)*0.1)` — with no `distance`
argument. -/
def peaksFourier (dft : List ℚ → List ℚ) (y : List ℚ) : List ℕ :=
  findPeaksHeight (potenza dft y) (npMax (potenza dft y) * (1/10))

/-- Specification wording of the amplitude spectrum: bin `k` carries
`(2/N) · |DFT_k|`. -/
def specAmplitudes (dft : List ℚ → List ℚ) (y : List ℚ) : List ℚ :=
  (List.range (y.length / 2)).map (fun k => 2 / (y.length : ℚ) * (dft y).getD k 0)

/-- Specification wording of the bins: `k` times the resolution `fs/N`,
for `k` below `N/2`. -/
def specBins (fs N : ℕ) : List ℚ :=
  (List.range (N / 2)).map (fun k => (k : ℚ) * ((fs : ℚ) / N))

/-- Claim C5, counterexample: the Fourier-spectrum site (app.py 1784-1786)
enforces no minimum peak separation.  For a transform giving magnitudes
`[0,5,1,4,0,…]` on a 10-sample signal it reports the two peaks `[1, 3]`,
only 2 bins apart, although the program's own beat-recognizer separation
for these parameters (`int(10*N/fs)` at `fs = 33`) is 3 bins — so the
claim's minimum index/frequency separation, asserted for every place the
analyzer is applied, fails at this site. -/
theorem C5_counterexample :
    peaksFourier (fun l => List.take l.length [0, 5, 1, 4, 0, 9, 9, 9, 9, 9])
        (List.replicate 10 0) = [1, 3] ∧
      (10 * (List.replicate 10 (0:ℚ)).length) / 33 = 3 ∧
      ¬ List.Pairwise (fun p1 p2 : ℕ => 3 ≤ ((p1 : ℤ) - (p2 : ℤ)).natAbs)
          (peaksFourier (fun l => List.take l.length [0, 5, 1, 4, 0, 9, 9, 9, 9, 9])
            (List.replicate 10 0)) := by
  refine ⟨?_, by decide, ?_⟩
  · with_unfolding_all rfl
  · have h : peaksFourier (fun l => List.take l.length [0, 5, 1, 4, 0, 9, 9, 9, 9, 9])
        (List.replicate 10 0) = [1, 3] := by with_unfolding_all rfl
    rw [h]
    intro hp
    have := List.rel_of_pairwise_cons hp (List.mem_singleton.mpr rfl)
    omega

/-- Claim C5, amended: (i) the one-sided amplitude spectrum is
`(2/N)·|DFT_k|` on the bins `k < N//2` at frequencies `k·(fs/N)`; (ii) the
beat-recognizer site's peak picking (`height=…, distance=d`) returns peaks
that are pairwise at least `d` bins apart and are local maxima over the
height threshold; (iii) the Fourier-spectrum site (app.py 1784-1786)
applies only the height threshold `0.1 · max` to the local maxima, with no
separation constraint. -/
theorem C5_amended_spectral_analyzer :
    (∀ (dft : List ℚ → List ℚ) (y : List ℚ), y.length / 2 ≤ (dft y).length →
        potenza dft y = specAmplitudes dft y) ∧
    (∀ fs N : ℕ, xfFreqs fs N = specBins fs N) ∧
    (∀ (x : List ℚ) (hmin : ℚ) (d : ℕ),
        (findPeaksHD x hmin d).Pairwise
          (fun p1 p2 : ℕ => d ≤ ((p1 : ℤ) - (p2 : ℤ)).natAbs) ∧
        ∀ i ∈ findPeaksHD x hmin d, i ∈ localMaxima x ∧ hmin ≤ x.getD i 0) ∧
    (∀ (dft : List ℚ → List ℚ) (y : List ℚ), ∀ i ∈ peaksFourier dft y,
        i ∈ localMaxima (potenza dft y) ∧
          npMax (potenza dft y) * (1/10) ≤ (potenza dft y).getD i 0) ∧
    (∀ (dft : List ℚ → List ℚ) (y : List ℚ),
        peaksFourier dft y = (localMaxima (potenza dft y)).filter
          (fun i => decide (npMax (potenza dft y) * (1/10) ≤ (potenza dft y).getD i 0))) := by
  refine ⟨?_, ?_, ?_, ?_, ?_⟩
  · intro dft y hlen
    unfold potenza specAmplitudes
    apply List.ext_getElem
    · simp; omega
    · intro i h1 h2
      simp only [List.getElem_map, List.getElem_take, List.getElem_range]
      congr 1
      rw [List.getD_eq_getElem?_getD, List.getElem?_eq_getElem (by
        simp only [List.length_map, List.length_take] at h1
        omega)]
      rfl
  · intro fs N
    unfold xfFreqs specBins
    exact List.map_congr_left (fun k _ => by rw [mul_div_assoc])
  · intro x hmin d
    constructor
    · exact selectByPeakDistance_pairwise _ _ d (by simp [findPeaksHD])
    · intro i hi
      have hsub := selectByPeakDistance_subset _ _ d i hi
      unfold findPeaksHeight at hsub
      rw [List.mem_filter] at hsub
      exact ⟨hsub.1, by simpa using hsub.2⟩
  · intro dft y i hi
    unfold peaksFourier findPeaksHeight at hi
    rw [List.mem_filter] at hi
    exact ⟨hi.1, by simpa using hi.2⟩
  · intro dft y
    rfl

/-- Witness for `C5_amended_spectral_analyzer` (its first conjunct carries a
hypothesis): instantiated at a concrete transform, signal, and the beat
site's concrete threshold and distance. -/
theorem C5_amended_spectral_analyzer_witness :
    potenza (fun l => l) [4, 8, 12, 16] = specAmplitudes (fun l => l) [4, 8, 12, 16] ∧
      (findPeaksHD [0, 4, 1, 5, 0] (1/10) 3).Pairwise
        (fun p1 p2 : ℕ => 3 ≤ ((p1 : ℤ) - (p2 : ℤ)).natAbs) :=
  ⟨C5_amended_spectral_analyzer.1 (fun l => l) [4, 8, 12, 16] (by decide),
   (C5_amended_spectral_analyzer.2.2.1 [0, 4, 1, 5, 0] (1/10) 3).1⟩

/-! ### Beat Recognizer (app.py 2913-3186)

Abstract library parameters: `dft` as before, `hilb` for
`fun y => np.abs(hilbert(y))`, `smooth` for
`fun y size => scipy.ndimage.uniform_filter1d(y, size)`. -/

/-- Model of `np.min` on a (nonempty) 1-d array (Python `min(...)` on a
NumPy array behaves likewise). -/
def npMin : List ℚ → ℚ
  | [] => 0
  | a :: t => t.foldl min a

/-- Model of `np.diff`. -/
def pyDiff (l : List ℚ) : List ℚ := (l.zip l.tail).map (fun p => p.2 - p.1)

/-- Model of `np.linspace(a, b, n)` (the `n = 1` case gives `[a]`, via the
`ℚ` convention `x / 0 = 0`). -/
def linspace (a b : ℚ) (n : ℕ) : List ℚ :=
  (List.range n).map (fun i => a + (b - a) * i / ((n : ℚ) - 1))

/-- Input normalization of the Beat Recognizer (app.py 2941-2945):
`max_val = np.max(np.abs(audio)); if max_val > 0: audio = audio / max_val`. -/
def normalizeAudio (audio : List ℚ) : List ℚ :=
  let max_val := npMax (audio.map (fun x => |x|))
  if 0 < max_val then audio.map (fun x => x / max_val) else audio

/-- FFT window `window_size_beat = min(len(audio), 65536)` (app.py 2964). -/
def beatWindowN (a : List ℚ) : ℕ := min a.length 65536

/-- Embedding of `potenza_beat` (app.py 2966-2968): the one-sided amplitude spectrum of
the first `beatWindowN` samples. -/
def beatPotenza (dft : List ℚ → List ℚ) (a : List ℚ) : List ℚ :=
  potenza dft (a.take (beatWindowN a))

/-- Embedding of `potenza_filtered = np.where(xf_beat > 50, potenza_beat, 0)`
(app.py 2972-2973). -/
def beatPotF (dft : List ℚ → List ℚ) (a : List ℚ) (fs : ℕ) : List ℚ :=
  (List.range (beatWindowN a / 2)).map (fun (k : ℕ) =>
    if 50 < (k : ℚ) * fs / (beatWindowN a) then (beatPotenza dft a).getD k 0 else 0)

/-- Embedding of `distance=int(10 * window_size_beat / sample_rate_beat)` (app.py 2977). -/
def beatDistance (a : List ℚ) (fs : ℕ) : ℕ := 10 * beatWindowN a / fs

/-- Embedding of `peaks_beat` (app.py 2975-2977): `find_peaks(potenza_filtered,
height=np.max(potenza_filtered)*0.15, distance=…)`. -/
def beatPeaks (dft : List ℚ → List ℚ) (a : List ℚ) (fs : ℕ) : List ℕ :=
  findPeaksHD (beatPotF dft a fs) (npMax (beatPotF dft a fs) * (3/20))
    (beatDistance a fs)

/-- Top two peaks by `potenza_beat` amplitude (app.py 2981-2982):
`peaks_beat[np.argsort(potenza_beat[peaks_beat])[::-1][:2]]`. -/
def beatTop2 (dft : List ℚ → List ℚ) (a : List ℚ) (fs : ℕ) : List ℕ :=
  let peaks := beatPeaks dft a fs
  ((argsortDesc (peaks.map (fun i => (beatPotenza dft a).getD i 0))).take 2).map
    (fun k => peaks.getD k 0)

/-- Embedding of `f1_rilevata = min(xf_beat[top_2_peaks])` (app.py 2984). -/
def beatF1 (dft : List ℚ → List ℚ) (a : List ℚ) (fs : ℕ) : ℚ :=
  npMin ((beatTop2 dft a fs).map (fun i => (xfFreqs fs (beatWindowN a)).getD i 0))

/-- Embedding of `f2_rilevata = max(xf_beat[top_2_peaks])` (app.py 2985). -/
def beatF2 (dft : List ℚ → List ℚ) (a : List ℚ) (fs : ℕ) : ℚ :=
  npMax ((beatTop2 dft a fs).map (fun i => (xfFreqs fs (beatWindowN a)).getD i 0))

/-- Embedding of `inviluppo_smooth = uniform_filter1d(np.abs(hilbert(a)),
size=int(fs*0.01))` (app.py 3024-3029). -/
def beatSmoothed (hilb : List ℚ → List ℚ) (smooth : List ℚ → ℕ → List ℚ)
    (a : List ℚ) (fs : ℕ) : List ℚ :=
  smooth (hilb a) (fs / 100)

/-- Embedding of `inviluppo_centered = inviluppo_smooth - np.mean(inviluppo_smooth)`
(app.py 3033). -/
def beatCentered (hilb : List ℚ → List ℚ) (smooth : List ℚ → ℕ → List ℚ)
    (a : List ℚ) (fs : ℕ) : List ℚ :=
  let sm := beatSmoothed hilb smooth a fs
  sm.map (fun v => v - npMean sm)

/-- Embedding of `potenza_env_filtered`: the envelope spectrum `2/N·|fft|` masked to the
band `0.5 < f < 30` (app.py 3034-3040). -/
def beatEnvPotF (dft hilb : List ℚ → List ℚ) (smooth : List ℚ → ℕ → List ℚ)
    (a : List ℚ) (fs : ℕ) : List ℚ :=
  let cent := beatCentered hilb smooth a fs
  (List.range (cent.length / 2)).map (fun (k : ℕ) =>
    if (1 : ℚ)/2 < (k : ℚ) * fs / cent.length ∧ (k : ℚ) * fs / cent.length < 30
    then (potenza dft cent).getD k 0 else 0)

/-- Measured beat frequency (app.py 3042-3054), `none` when the envelope
fallback would call `find_peaks` with `distance=int(fs*0.05) < 1`, which
scipy rejects (the surrounding `try` turns that into a reported error).
Primary path: the frequency of the band-spectrum argmax; fallback: count
the local maxima of the smoothed envelope (minimum distance `fs//20`
samples) on the time grid `linspace(0, durata, len(audio))` and invert the
mean inter-peak interval. -/
def beatMeasured? (dft hilb : List ℚ → List ℚ) (smooth : List ℚ → ℕ → List ℚ)
    (a : List ℚ) (fs : ℕ) : Option ℚ :=
  let potEF := beatEnvPotF dft hilb smooth a fs
  let Ne := (beatCentered hilb smooth a fs).length
  if 0 < npMax potEF then some ((npArgmax potEF : ℚ) * fs / Ne)
  else if fs / 20 = 0 then none
  else
    let sm := beatSmoothed hilb smooth a fs
    let peaksE := findPeaksDistance sm (fs / 20)
    if 1 < peaksE.length then
      let t_beat := linspace 0 ((a.length : ℚ) / fs) a.length
      let T_medio := npMean (pyDiff (peaksE.map (fun i => t_beat.getD i 0)))
      some (if 0 < T_medio then 1 / T_medio else 0)
    else some 0

/-- Outcome of the Beat Recognizer analysis block (app.py 2913-3186). -/
inductive BeatOutcome where
  | emptyError : BeatOutcome
  | analysisError : BeatOutcome
  | noPeaks : BeatOutcome
  | onePeak : ℚ → BeatOutcome
  | result : ℚ → ℚ → ℚ → ℚ → ℚ → ℚ → ℚ → BeatOutcome
  deriving DecidableEq

/-- The Beat Recognizer (app.py 2913-3186) as one function of the decoded
mono audio and sample rate.  `emptyError` is the explicit zero-length check
(`st.error` + `st.stop`, app.py 2930-2939); `analysisError` is the generic
`except` branch (app.py 3183-3186), reached when NumPy/scipy raise (empty
spectrum maximum for one-sample audio, or a `distance` below 1);
`onePeak`/`noPeaks` are the `elif len(peaks_beat) == 1`/`else` reports
(app.py 3177-3181); `result` carries `(f1, f2, f_batt_teorica,
f_batt_misurata, errore_perc, T_batt_teorico, T_batt_misurato)`
(app.py 2984-3066). -/
def beatAnalyze (dft hilb : List ℚ → List ℚ) (smooth : List ℚ → ℕ → List ℚ)
    (audio : List ℚ) (fs : ℕ) : BeatOutcome :=
  if audio.length = 0 then .emptyError
  else
    let a := normalizeAudio audio
    if beatWindowN a / 2 = 0 then .analysisError
    else if beatDistance a fs = 0 then .analysisError
    else
      let peaks := beatPeaks dft a fs
      if 2 ≤ peaks.length then
        let f1 := beatF1 dft a fs
        let f2 := beatF2 dft a fs
        let teorica := |f2 - f1|
        match beatMeasured? dft hilb smooth a fs with
        | none => .analysisError
        | some mis =>
          let errore := if 0 < teorica then |mis - teorica| / teorica * 100 else 0
          let T_teorico := if 0 < teorica then 1 / teorica else 0
          let T_misurato := if 0 < mis then 1 / mis else 0
          .result f1 f2 teorica mis errore T_teorico T_misurato
      else if peaks.length = 1 then
        .onePeak ((xfFreqs fs (beatWindowN a)).getD (peaks.getD 0 0) 0)
      else .noPeaks

/-! ### Claim C10 -/

theorem normalizeAudio_length (audio : List ℚ) :
    (normalizeAudio audio).length = audio.length := by
  unfold normalizeAudio
  dsimp only
  split <;> simp

/-- Claim C10: the Beat Recognizer's input normalization divides by the
maximum absolute value only when it is strictly positive; an all-zero input
passes through unchanged (no division by zero occurs — the guarded branch
is the only dividing one), and after normalization every sample has
absolute value at most 1. -/
theorem C10_normalization_zero_guard (audio : List ℚ) :
    ((∀ x ∈ audio, x = 0) → normalizeAudio audio = audio) ∧
      ∀ x ∈ normalizeAudio audio, |x| ≤ 1 := by
  constructor
  · intro hz
    have hnp : ¬ 0 < npMax (audio.map (fun x => |x|)) := by
      intro hpos
      rcases haudio : audio with _ | ⟨a, t⟩
      · rw [haudio] at hpos
        simp [npMax] at hpos
      · have hmem := npMax_mem (l := (a :: t).map fun x => |x|) (by simp)
        rcases List.mem_map.mp hmem with ⟨y, hy, hEq⟩
        have hy0 : y = 0 := hz y (haudio ▸ hy)
        rw [haudio, ← hEq, hy0] at hpos
        simp at hpos
    unfold normalizeAudio
    rw [if_neg hnp]
  · intro x hx
    unfold normalizeAudio at hx
    by_cases hpos : 0 < npMax (audio.map (fun x => |x|))
    · rw [if_pos hpos] at hx
      rcases List.mem_map.mp hx with ⟨y, hy, rfl⟩
      have hyle : |y| ≤ npMax (audio.map (fun x => |x|)) :=
        le_npMax_of_mem (List.mem_map.mpr ⟨y, hy, rfl⟩)
      rw [abs_div, abs_of_pos hpos]
      exact div_le_one_of_le₀ hyle (le_of_lt hpos)
    · rw [if_neg hpos] at hx
      have hyle : |x| ≤ npMax (audio.map (fun v => |v|)) :=
        le_npMax_of_mem (List.mem_map.mpr ⟨x, hx, rfl⟩)
      have : |x| ≤ 0 := le_trans hyle (not_lt.mp hpos)
      have : x = 0 := abs_nonpos_iff.mp this
      simp [this]

/-- Witness for `C10_normalization_zero_guard` on an all-zero input. -/
theorem C10_normalization_zero_guard_witness :
    normalizeAudio [0, 0, 0] = [0, 0, 0] :=
  (C10_normalization_zero_guard [0, 0, 0]).1 (by decide)

/-! ### Claim C6 -/

/-- Claim C6: the Beat Recognizer surfaces its two degenerate inputs as
distinguishable outcomes rather than exceptions.  Zero-length audio is the
reported-error-and-stop outcome `emptyError` (no silent continuation), and
when the spectral analysis restricted to above 50 Hz yields fewer than two
peaks the outcome is the distinct single-tone report (`onePeak`, carrying
the lone frequency) or no-tone report (`noPeaks`), not an exception.  (The
two `beatDistance`/window guards are the preconditions under which scipy
itself does not raise; a raise lands in the page's generic `except`.) -/
theorem C6_degenerate_inputs_reported (dft hilb : List ℚ → List ℚ)
    (smooth : List ℚ → ℕ → List ℚ) (audio : List ℚ) (fs : ℕ) :
    (audio = [] → beatAnalyze dft hilb smooth audio fs = .emptyError) ∧
      (2 ≤ audio.length → beatDistance (normalizeAudio audio) fs ≠ 0 →
        (beatPeaks dft (normalizeAudio audio) fs).length < 2 →
        ((beatPeaks dft (normalizeAudio audio) fs).length = 1 ∧
            beatAnalyze dft hilb smooth audio fs =
              .onePeak ((xfFreqs fs (beatWindowN (normalizeAudio audio))).getD
                ((beatPeaks dft (normalizeAudio audio) fs).getD 0 0) 0)) ∨
          ((beatPeaks dft (normalizeAudio audio) fs).length = 0 ∧
            beatAnalyze dft hilb smooth audio fs = .noPeaks)) := by
  constructor
  · intro h
    subst h
    rfl
  · intro hlen hd hpk
    have h0 : ¬audio.length = 0 := by omega
    have hw : ¬beatWindowN (normalizeAudio audio) / 2 = 0 := by
      unfold beatWindowN
      rw [normalizeAudio_length]
      omega
    unfold beatAnalyze
    rw [if_neg h0]
    dsimp only
    rw [if_neg hw, if_neg hd, if_neg (by omega)]
    rcases (by omega : (beatPeaks dft (normalizeAudio audio) fs).length = 0 ∨
        (beatPeaks dft (normalizeAudio audio) fs).length = 1) with h1 | h1
    · right
      rw [if_neg (by omega)]
      exact ⟨h1, rfl⟩
    · left
      rw [if_pos h1]
      exact ⟨h1, rfl⟩

/-- Witness for `C6_degenerate_inputs_reported`: the zero-length branch on
`[]`, and the no-peak branch on a two-sample signal whose spectrum has a
single bin. -/
theorem C6_degenerate_inputs_reported_witness :
    beatAnalyze (fun l => l) (fun l => l) (fun l _ => l) [] 150 = .emptyError ∧
      beatAnalyze (fun l => l) (fun l => l) (fun l _ => l) [1, 0] 1 = .noPeaks := by
  constructor
  · exact (C6_degenerate_inputs_reported (fun l => l) (fun l => l) (fun l _ => l)
      [] 150).1 rfl
  · rcases (C6_degenerate_inputs_reported (fun l => l) (fun l => l) (fun l _ => l)
        [1, 0] 1).2 (by decide) (of_decide_eq_true (by with_unfolding_all rfl))
        (of_decide_eq_true (by with_unfolding_all rfl)) with h | h
    · exact absurd h.1 (by
        have : (beatPeaks (fun l => l) (normalizeAudio [1, 0]) 1).length = 0 := by
          with_unfolding_all rfl
        omega)
    · exact h.2

/-! ### Claim C7 -/

theorem insertDescBy_length (vals : List ℚ) (i : ℕ) :
    ∀ l : List ℕ, (insertDescBy vals i l).length = l.length + 1 := by
  intro l
  induction l with
  | nil => rfl
  | cons j rest ih =>
    unfold insertDescBy
    split
    · simpa using ih
    · rfl

theorem argsortDesc_length (vals : List ℚ) :
    (argsortDesc vals).length = vals.length := by
  unfold argsortDesc
  have h : ∀ (l : List ℕ) (acc : List ℕ),
      (l.foldl (fun acc i => insertDescBy vals i acc) acc).length =
        acc.length + l.length := by
    intro l
    induction l with
    | nil => intro acc; simp
    | cons a rest ih =>
      intro acc
      rw [List.foldl_cons, ih, insertDescBy_length]
      simp only [List.length_cons]
      omega
  rw [h]
  simp

theorem insertDescBy_sorted (vals : List ℚ) (i : ℕ) :
    ∀ l : List ℕ, l.Pairwise (fun a b => vals.getD b 0 ≤ vals.getD a 0) →
      (insertDescBy vals i l).Pairwise (fun a b => vals.getD b 0 ≤ vals.getD a 0) := by
  intro l
  induction l with
  | nil => intro _; simp [insertDescBy]
  | cons j rest ih =>
    intro h
    rcases List.pairwise_cons.mp h with ⟨hj, hrest⟩
    unfold insertDescBy
    split
    · rw [List.pairwise_cons]
      refine ⟨?_, ih hrest⟩
      intro b hb
      rcases (mem_insertDescBy vals i b rest).mp hb with rfl | hb
      · assumption
      · exact hj b hb
    next hcond =>
      rw [List.pairwise_cons]
      refine ⟨?_, h⟩
      intro b hb
      rcases List.mem_cons.mp hb with rfl | hb
      · exact le_of_lt (lt_of_not_le hcond)
      · exact le_trans (hj b hb) (le_of_lt (lt_of_not_le hcond))

theorem argsortDesc_sorted (vals : List ℚ) :
    (argsortDesc vals).Pairwise (fun a b => vals.getD b 0 ≤ vals.getD a 0) := by
  unfold argsortDesc
  have h : ∀ (l : List ℕ) (acc : List ℕ),
      acc.Pairwise (fun a b => vals.getD b 0 ≤ vals.getD a 0) →
      (l.foldl (fun acc i => insertDescBy vals i acc) acc).Pairwise
        (fun a b => vals.getD b 0 ≤ vals.getD a 0) := by
    intro l
    induction l with
    | nil => intro acc h; exact h
    | cons a rest ih =>
      intro acc hacc
      rw [List.foldl_cons]
      exact ih _ (insertDescBy_sorted vals a acc hacc)
  exact h _ [] (by simp)

/-- Positions outside the first `n` entries of `argsortDesc` carry values no
larger than any position among the first `n` (the amplitude-dominance of
`np.argsort(...)[::-1][:n]`). -/
theorem argsortDesc_take_dominates (vals : List ℚ) (n : ℕ) :
    ∀ j ∈ (argsortDesc vals).drop n, ∀ i ∈ (argsortDesc vals).take n,
      vals.getD j 0 ≤ vals.getD i 0 := by
  intro j hj i hi
  have h := argsortDesc_sorted vals
  rw [← List.take_append_drop n (argsortDesc vals)] at h
  exact (List.pairwise_append.mp h).2.2 i hi j hj

theorem npMin_mem {l : List ℚ} (h : l ≠ []) : npMin l ∈ l := by
  cases l with
  | nil => exact absurd rfl h
  | cons a t =>
    clear h
    show t.foldl min a ∈ a :: t
    induction t generalizing a with
    | nil => simp [List.foldl]
    | cons b u ih =>
      simp only [List.foldl_cons]
      rcases List.mem_cons.mp (ih (min a b)) with h | h
      · rw [h]
        rcases min_choice a b with hm | hm <;> rw [hm] <;> simp
      · exact List.mem_cons_of_mem _ (List.mem_cons_of_mem _ h)

theorem npMin_le_npMax {l : List ℚ} (h : l ≠ []) : npMin l ≤ npMax l :=
  le_npMax_of_mem (npMin_mem h)

theorem npMax_pos_ne_nil {l : List ℚ} (h : 0 < npMax l) : l ≠ [] := by
  intro hnil
  rw [hnil] at h
  simp [npMax] at h

theorem beatTop2_ne_nil (dft : List ℚ → List ℚ) (a : List ℚ) (fs : ℕ)
    (h2 : 2 ≤ (beatPeaks dft a fs).length) : beatTop2 dft a fs ≠ [] := by
  unfold beatTop2
  intro h
  rw [List.map_eq_nil_iff, List.take_eq_nil_iff] at h
  rcases h with h | h
  · exact absurd h (by norm_num)
  · rw [← List.length_eq_zero, argsortDesc_length, List.length_map] at h
    omega

/-- Claim C7, amended, part (a)-(b): with at least two qualifying peaks the
Beat Recognizer reports `f1 = min`, `f2 = max` of the two highest-amplitude
peaks' frequencies (`f1 ≤ f2`), `beat_theoretical = |f2 − f1| = f2 − f1`,
and the measured beat frequency `mis`; part (c): every peak outside the
selected top-2 has `potenza_beat` amplitude at most that of each selected
peak; part (d): when band-restricted (0.5–30 Hz) spectral content of the
smoothed, mean-subtracted envelope exists, `mis` is the frequency of a band
bin whose amplitude is maximal among all band bins. -/
theorem C7_amended_beat_recognizer (dft hilb : List ℚ → List ℚ)
    (smooth : List ℚ → ℕ → List ℚ) (audio : List ℚ) (fs : ℕ) (mis : ℚ)
    (h0 : audio.length ≠ 0)
    (hw : beatWindowN (normalizeAudio audio) / 2 ≠ 0)
    (hd : beatDistance (normalizeAudio audio) fs ≠ 0)
    (h2 : 2 ≤ (beatPeaks dft (normalizeAudio audio) fs).length)
    (hm : beatMeasured? dft hilb smooth (normalizeAudio audio) fs = some mis) :
    beatF1 dft (normalizeAudio audio) fs ≤ beatF2 dft (normalizeAudio audio) fs ∧
    beatAnalyze dft hilb smooth audio fs =
      .result (beatF1 dft (normalizeAudio audio) fs)
        (beatF2 dft (normalizeAudio audio) fs)
        (beatF2 dft (normalizeAudio audio) fs - beatF1 dft (normalizeAudio audio) fs)
        mis
        (if 0 < beatF2 dft (normalizeAudio audio) fs - beatF1 dft (normalizeAudio audio) fs
         then |mis - (beatF2 dft (normalizeAudio audio) fs -
             beatF1 dft (normalizeAudio audio) fs)| /
           (beatF2 dft (normalizeAudio audio) fs - beatF1 dft (normalizeAudio audio) fs) * 100
         else 0)
        (if 0 < beatF2 dft (normalizeAudio audio) fs - beatF1 dft (normalizeAudio audio) fs
         then 1 / (beatF2 dft (normalizeAudio audio) fs - beatF1 dft (normalizeAudio audio) fs)
         else 0)
        (if 0 < mis then 1 / mis else 0) ∧
    (∀ k ∈ (argsortDesc ((beatPeaks dft (normalizeAudio audio) fs).map
          (fun i => (beatPotenza dft (normalizeAudio audio)).getD i 0))).drop 2,
       ∀ j ∈ (argsortDesc ((beatPeaks dft (normalizeAudio audio) fs).map
          (fun i => (beatPotenza dft (normalizeAudio audio)).getD i 0))).take 2,
       ((beatPeaks dft (normalizeAudio audio) fs).map
          (fun i => (beatPotenza dft (normalizeAudio audio)).getD i 0)).getD k 0 ≤
         ((beatPeaks dft (normalizeAudio audio) fs).map
          (fun i => (beatPotenza dft (normalizeAudio audio)).getD i 0)).getD j 0) ∧
    (0 < npMax (beatEnvPotF dft hilb smooth (normalizeAudio audio) fs) →
      ∃ k < (beatCentered hilb smooth (normalizeAudio audio) fs).length / 2,
        ((1:ℚ)/2 < (k : ℚ) * fs / (beatCentered hilb smooth (normalizeAudio audio) fs).length ∧
          (k : ℚ) * fs / (beatCentered hilb smooth (normalizeAudio audio) fs).length < 30) ∧
        mis = (k : ℚ) * fs / (beatCentered hilb smooth (normalizeAudio audio) fs).length ∧
        ∀ j < (beatCentered hilb smooth (normalizeAudio audio) fs).length / 2,
          ((1:ℚ)/2 < (j : ℚ) * fs / (beatCentered hilb smooth (normalizeAudio audio) fs).length ∧
            (j : ℚ) * fs / (beatCentered hilb smooth (normalizeAudio audio) fs).length < 30) →
          (potenza dft (beatCentered hilb smooth (normalizeAudio audio) fs)).getD j 0 ≤
            (potenza dft (beatCentered hilb smooth (normalizeAudio audio) fs)).getD k 0) := by
  have hf12 : beatF1 dft (normalizeAudio audio) fs ≤ beatF2 dft (normalizeAudio audio) fs := by
    unfold beatF1 beatF2
    apply npMin_le_npMax
    simp only [ne_eq, List.map_eq_nil_iff]
    exact beatTop2_ne_nil dft (normalizeAudio audio) fs h2
  have habs : |beatF2 dft (normalizeAudio audio) fs - beatF1 dft (normalizeAudio audio) fs| =
      beatF2 dft (normalizeAudio audio) fs - beatF1 dft (normalizeAudio audio) fs :=
    abs_of_nonneg (sub_nonneg.mpr hf12)
  refine ⟨hf12, ?_, ?_, ?_⟩
  · unfold beatAnalyze
    rw [if_neg h0]
    dsimp only
    rw [if_neg hw, if_neg hd, if_pos h2, hm, habs]
  · intro k hk j hj
    exact argsortDesc_take_dominates _ 2 k hk j hj
  · intro hband
    set cent := beatCentered hilb smooth (normalizeAudio audio) fs with hcent
    set potEF := beatEnvPotF dft hilb smooth (normalizeAudio audio) fs with hpotEF
    have hne : potEF ≠ [] := npMax_pos_ne_nil hband
    have hlenEF : potEF.length = cent.length / 2 := by
      rw [hpotEF]
      unfold beatEnvPotF
      simp [← hcent]
    have hklt : npArgmax potEF < potEF.length := npArgmax_lt_length hne
    have hval : potEF.getD (npArgmax potEF) 0 = npMax potEF := getD_npArgmax hne
    have hEFgetD : ∀ i : ℕ, potEF.getD i 0 =
        if i < cent.length / 2 then
          (if (1:ℚ)/2 < (i : ℚ) * fs / cent.length ∧ (i : ℚ) * fs / cent.length < 30
           then (potenza dft cent).getD i 0 else 0)
        else 0 := by
      intro i
      rw [hpotEF]
      unfold beatEnvPotF
      rw [← hcent, getD_map_range]
    refine ⟨npArgmax potEF, hlenEF ▸ hklt, ?_, ?_, ?_⟩
    · -- the argmax bin is in the band
      by_contra hcon
      have := hval
      rw [hEFgetD, if_pos (hlenEF ▸ hklt), if_neg hcon] at this
      rw [← this] at hband
      exact lt_irrefl 0 hband
    · -- mis is the argmax bin's frequency
      have : beatMeasured? dft hilb smooth (normalizeAudio audio) fs =
          some ((npArgmax potEF : ℚ) * fs / cent.length) := by
        unfold beatMeasured?
        rw [← hpotEF, ← hcent, if_pos hband]
      rw [this] at hm
      exact (Option.some_inj.mp hm).symm
    · -- the argmax bin dominates every band bin
      intro j hj hjband
      have hjval : potEF.getD j 0 = (potenza dft cent).getD j 0 := by
        rw [hEFgetD, if_pos hj, if_pos hjband]
      have hkval : potEF.getD (npArgmax potEF) 0 = (potenza dft cent).getD (npArgmax potEF) 0 := by
        rw [hEFgetD, if_pos (hlenEF ▸ hklt)]
        split
        · rfl
        · next hcon =>
          exfalso
          have := hval
          rw [hEFgetD, if_pos (hlenEF ▸ hklt), if_neg hcon] at this
          rw [← this] at hband
          exact lt_irrefl 0 hband
      rw [← hjval, ← hkval, hval]
      exact getD_le_npMax potEF j (hlenEF ▸ hj)

set_option maxRecDepth 400000 in
/-- Witness for `C7_amended_beat_recognizer` on the concrete two-tone
spectrum used throughout (peaks at 55 Hz and 65 Hz, measured beat 10 Hz). -/
theorem C7_amended_beat_recognizer_witness :
    beatAnalyze
        (fun l => if l.all (· = 0) then [0, 0, 9, 1, 0, 0, 0, 0, 0, 0, 0, 0, 0, 0, 0]
          else [0, 0, 1, 9, 0, 0, 0, 0, 0, 0, 0, 4, 1, 5, 0])
        (fun l => l) (fun l _ => l.map (fun _ => 0)) (1 :: List.replicate 29 0) 150 =
      .result
        (beatF1 (fun l => if l.all (· = 0) then [0, 0, 9, 1, 0, 0, 0, 0, 0, 0, 0, 0, 0, 0, 0]
          else [0, 0, 1, 9, 0, 0, 0, 0, 0, 0, 0, 4, 1, 5, 0])
          (normalizeAudio (1 :: List.replicate 29 0)) 150)
        (beatF2 (fun l => if l.all (· = 0) then [0, 0, 9, 1, 0, 0, 0, 0, 0, 0, 0, 0, 0, 0, 0]
          else [0, 0, 1, 9, 0, 0, 0, 0, 0, 0, 0, 4, 1, 5, 0])
          (normalizeAudio (1 :: List.replicate 29 0)) 150)
        (beatF2 (fun l => if l.all (· = 0) then [0, 0, 9, 1, 0, 0, 0, 0, 0, 0, 0, 0, 0, 0, 0]
          else [0, 0, 1, 9, 0, 0, 0, 0, 0, 0, 0, 4, 1, 5, 0])
          (normalizeAudio (1 :: List.replicate 29 0)) 150 -
         beatF1 (fun l => if l.all (· = 0) then [0, 0, 9, 1, 0, 0, 0, 0, 0, 0, 0, 0, 0, 0, 0]
          else [0, 0, 1, 9, 0, 0, 0, 0, 0, 0, 0, 4, 1, 5, 0])
          (normalizeAudio (1 :: List.replicate 29 0)) 150)
        10
        (if 0 < beatF2 (fun l => if l.all (· = 0) then [0, 0, 9, 1, 0, 0, 0, 0, 0, 0, 0, 0, 0, 0, 0]
            else [0, 0, 1, 9, 0, 0, 0, 0, 0, 0, 0, 4, 1, 5, 0])
            (normalizeAudio (1 :: List.replicate 29 0)) 150 -
          beatF1 (fun l => if l.all (· = 0) then [0, 0, 9, 1, 0, 0, 0, 0, 0, 0, 0, 0, 0, 0, 0]
            else [0, 0, 1, 9, 0, 0, 0, 0, 0, 0, 0, 4, 1, 5, 0])
            (normalizeAudio (1 :: List.replicate 29 0)) 150
         then |10 - (beatF2 (fun l => if l.all (· = 0) then [0, 0, 9, 1, 0, 0, 0, 0, 0, 0, 0, 0, 0, 0, 0]
            else [0, 0, 1, 9, 0, 0, 0, 0, 0, 0, 0, 4, 1, 5, 0])
            (normalizeAudio (1 :: List.replicate 29 0)) 150 -
          beatF1 (fun l => if l.all (· = 0) then [0, 0, 9, 1, 0, 0, 0, 0, 0, 0, 0, 0, 0, 0, 0]
            else [0, 0, 1, 9, 0, 0, 0, 0, 0, 0, 0, 4, 1, 5, 0])
            (normalizeAudio (1 :: List.replicate 29 0)) 150)| /
           (beatF2 (fun l => if l.all (· = 0) then [0, 0, 9, 1, 0, 0, 0, 0, 0, 0, 0, 0, 0, 0, 0]
            else [0, 0, 1, 9, 0, 0, 0, 0, 0, 0, 0, 4, 1, 5, 0])
            (normalizeAudio (1 :: List.replicate 29 0)) 150 -
          beatF1 (fun l => if l.all (· = 0) then [0, 0, 9, 1, 0, 0, 0, 0, 0, 0, 0, 0, 0, 0, 0]
            else [0, 0, 1, 9, 0, 0, 0, 0, 0, 0, 0, 4, 1, 5, 0])
            (normalizeAudio (1 :: List.replicate 29 0)) 150) * 100
         else 0)
        (if 0 < beatF2 (fun l => if l.all (· = 0) then [0, 0, 9, 1, 0, 0, 0, 0, 0, 0, 0, 0, 0, 0, 0]
            else [0, 0, 1, 9, 0, 0, 0, 0, 0, 0, 0, 4, 1, 5, 0])
            (normalizeAudio (1 :: List.replicate 29 0)) 150 -
          beatF1 (fun l => if l.all (· = 0) then [0, 0, 9, 1, 0, 0, 0, 0, 0, 0, 0, 0, 0, 0, 0]
            else [0, 0, 1, 9, 0, 0, 0, 0, 0, 0, 0, 4, 1, 5, 0])
            (normalizeAudio (1 :: List.replicate 29 0)) 150
         then 1 / (beatF2 (fun l => if l.all (· = 0) then [0, 0, 9, 1, 0, 0, 0, 0, 0, 0, 0, 0, 0, 0, 0]
            else [0, 0, 1, 9, 0, 0, 0, 0, 0, 0, 0, 4, 1, 5, 0])
            (normalizeAudio (1 :: List.replicate 29 0)) 150 -
          beatF1 (fun l => if l.all (· = 0) then [0, 0, 9, 1, 0, 0, 0, 0, 0, 0, 0, 0, 0, 0, 0]
            else [0, 0, 1, 9, 0, 0, 0, 0, 0, 0, 0, 4, 1, 5, 0])
            (normalizeAudio (1 :: List.replicate 29 0)) 150)
         else 0)
        (if 0 < (10 : ℚ) then 1 / 10 else 0) :=
  (C7_amended_beat_recognizer
    (fun l => if l.all (· = 0) then [0, 0, 9, 1, 0, 0, 0, 0, 0, 0, 0, 0, 0, 0, 0]
      else [0, 0, 1, 9, 0, 0, 0, 0, 0, 0, 0, 4, 1, 5, 0])
    (fun l => l) (fun l _ => l.map (fun _ => 0)) (1 :: List.replicate 29 0) 150 10
    (by decide)
    (of_decide_eq_true (by with_unfolding_all rfl))
    (of_decide_eq_true (by with_unfolding_all rfl))
    (of_decide_eq_true (by with_unfolding_all rfl))
    (by with_unfolding_all rfl)).2.1

/-- Claim C7's literal wording of the measured-beat primary path: the
spectrum of the mean-subtracted envelope — with NO smoothing before the
transform — restricted to 0.5–30 Hz, reading off the frequency of its
maximum.  (The source instead takes the spectrum of the smoothed envelope,
app.py 3029-3036.) -/
def claimC7MeasuredUnsmoothed (dft hilb : List ℚ → List ℚ) (a : List ℚ)
    (fs : ℕ) : ℚ :=
  let env := hilb a
  let cent := env.map (fun v => v - npMean env)
  let potEF := (List.range (cent.length / 2)).map (fun (k : ℕ) =>
    if (1:ℚ)/2 < (k : ℚ) * fs / cent.length ∧ (k : ℚ) * fs / cent.length < 30
    then (potenza dft cent).getD k 0 else 0)
  if 0 < npMax potEF then (npArgmax potEF : ℚ) * fs / cent.length else 0

set_option maxRecDepth 400000 in
/-- Claim C7, counterexample: the Beat Recognizer does not obtain the
measured beat frequency from the mean-subtracted (raw) envelope's spectrum;
it uses the spectrum of the smoothed, mean-subtracted envelope.  For the
concrete transform below the code's pipeline reports 10 Hz while the
claim's literal rule yields 15 Hz. -/
theorem C7_counterexample :
    beatAnalyze
        (fun l => if l.all (· = 0) then [0, 0, 9, 1, 0, 0, 0, 0, 0, 0, 0, 0, 0, 0, 0]
          else [0, 0, 1, 9, 0, 0, 0, 0, 0, 0, 0, 4, 1, 5, 0])
        (fun l => l) (fun l _ => l.map (fun _ => 0)) (1 :: List.replicate 29 0) 150 =
      .result 55 65 10 10 0 (1/10) (1/10) ∧
    claimC7MeasuredUnsmoothed
        (fun l => if l.all (· = 0) then [0, 0, 9, 1, 0, 0, 0, 0, 0, 0, 0, 0, 0, 0, 0]
          else [0, 0, 1, 9, 0, 0, 0, 0, 0, 0, 0, 4, 1, 5, 0])
        (fun l => l) (normalizeAudio (1 :: List.replicate 29 0)) 150 = 15 ∧
    (10 : ℚ) ≠ 15 := by
  refine ⟨?_, ?_, by norm_num⟩
  · with_unfolding_all rfl
  · with_unfolding_all rfl

/-! ### Claim C8: Validation Harness (app.py 2279-2320)

Abstract parameters: `piQ` models the float constant `np.pi`, `cosQ` the
library cosine, `H` the analytic-signal magnitude, exactly as the loop
composes them. -/

/-- One row of the `risultati` table (app.py 2294-2302). -/
structure TrialRecord where
  num : ℕ
  lambda_max : ℚ
  delta_lambda : ℚ
  delta_k : ℚ
  delta_x : ℚ
  prodotto : ℚ
  errore : ℚ

/-- The superposition `y = Σ_k (1/n)·cos(k·x)` built by the inner loop
(app.py 2287-2289), pointwise over the grid. -/
def sumCosines (cosQ : ℚ → ℚ) (ks : List ℚ) (n : ℕ) (xs : List ℚ) : List ℚ :=
  xs.map (fun x => (ks.map (fun k => 1/(n : ℚ) * cosQ (k * x))).sum)

/-- The Multi-Packet validation sweep (app.py 2279-2302): for each trial
`i < n_pacchetti`, synthesize the packet at `lambda_max = base + (i+1)·step`,
extract the envelope, measure `delta_x` with threshold `0.08`, and record
the row in sweep order. -/
def risultati (piQ : ℚ) (cosQ : ℚ → ℚ) (H : List ℚ → List ℚ)
    (n_pacchetti : ℕ) (lambda_min_base delta_lambda_step : ℚ)
    (n_onde_fisso : ℕ) : List TrialRecord :=
  (List.range n_pacchetti).map (fun (i : ℕ) =>
    let lambda_max := lambda_min_base + ((i : ℚ) + 1) * delta_lambda_step
    let k_min := 2 * piQ / lambda_max
    let k_max := 2 * piQ / lambda_min_base
    let delta_k := k_max - k_min
    let x := linspace (-35) 35 10000
    let k_vals := linspace k_min k_max n_onde_fisso
    let y := sumCosines cosQ k_vals n_onde_fisso x
    let env := H y
    let delta_x := (calcola_larghezza_temporale x env (2/25)).1
    let prodotto := delta_x * delta_k
    { num := i + 1
      lambda_max := lambda_max
      delta_lambda := lambda_max - lambda_min_base
      delta_k := delta_k
      delta_x := delta_x
      prodotto := prodotto
      errore := |prodotto - 4 * piQ| / (4 * piQ) * 100 })

/-- Claim C8: the sweep produces exactly `K` records in sweep (insertion)
order — row `i` is numbered `i+1`, and for a positive step the swept
`lambda_max` strictly increases along the series — and the mean of the
`Δx·Δk` products is permutation-invariant: any reordering of the records
yields the identical mean. -/
theorem C8_trial_series_and_mean (piQ : ℚ) (cosQ : ℚ → ℚ) (H : List ℚ → List ℚ)
    (K : ℕ) (base step : ℚ) (n_onde : ℕ) (l' : List TrialRecord)
    (hperm : (risultati piQ cosQ H K base step n_onde).Perm l') :
    (risultati piQ cosQ H K base step n_onde).length = K ∧
    (risultati piQ cosQ H K base step n_onde).map TrialRecord.num =
      (List.range K).map (· + 1) ∧
    (0 < step → (risultati piQ cosQ H K base step n_onde).Pairwise
      (fun r1 r2 => r1.lambda_max < r2.lambda_max)) ∧
    npMean (l'.map TrialRecord.prodotto) =
      npMean ((risultati piQ cosQ H K base step n_onde).map TrialRecord.prodotto) := by
  refine ⟨?_, ?_, ?_, ?_⟩
  · simp [risultati]
  · simp [risultati]
  · intro hstep
    unfold risultati
    rw [List.pairwise_map]
    refine (List.pairwise_lt_range K).imp_of_mem ?_
    intro i j hi hj hij
    dsimp only
    have : (i : ℚ) + 1 < (j : ℚ) + 1 := by
      have : (i : ℚ) < (j : ℚ) := by exact_mod_cast hij
      linarith
    have hmul : ((i : ℚ) + 1) * step < ((j : ℚ) + 1) * step :=
      mul_lt_mul_of_pos_right this hstep
    linarith
  · have hp : (l'.map TrialRecord.prodotto).Perm
        ((risultati piQ cosQ H K base step n_onde).map TrialRecord.prodotto) :=
      (hperm.map TrialRecord.prodotto).symm
    unfold npMean
    rw [hp.sum_eq, hp.length_eq]

/-- Witness for `C8_trial_series_and_mean` with `K = 3` and the reversed
series as the reordering. -/
theorem C8_trial_series_and_mean_witness :
    (risultati (22/7) (fun x => x) (fun l => l) 3 2 (4/5) 60).length = 3 ∧
    (risultati (22/7) (fun x => x) (fun l => l) 3 2 (4/5) 60).map TrialRecord.num =
      (List.range 3).map (· + 1) ∧
    (0 < (4/5 : ℚ) → (risultati (22/7) (fun x => x) (fun l => l) 3 2 (4/5) 60).Pairwise
      (fun r1 r2 => r1.lambda_max < r2.lambda_max)) ∧
    npMean (((risultati (22/7) (fun x => x) (fun l => l) 3 2 (4/5) 60).reverse).map
        TrialRecord.prodotto) =
      npMean ((risultati (22/7) (fun x => x) (fun l => l) 3 2 (4/5) 60).map
        TrialRecord.prodotto) :=
  C8_trial_series_and_mean (22/7) (fun x => x) (fun l => l) 3 2 (4/5) 60
    ((risultati (22/7) (fun x => x) (fun l => l) 3 2 (4/5) 60).reverse)
    (List.reverse_perm (risultati (22/7) (fun x => x) (fun l => l) 3 2 (4/5) 60)).symm

end SpecApp
